import Mathlib

/-!
Shallow embedding of the tailr utility (src/lib.rs): the offset-specification
type TakeValue and its FromStr parser, the start-index resolver
get_start_index, the counter count_lines_bytes, the two emitters print_bytes
and print_lines, and the orchestrator run.

Machine integers are modelled by Int and Nat: i64 is an Int with explicit
range facts where overflow matters, u64 is a Nat. File contents are List Nat
of byte values; the only byte the code distinguishes is 10, the line
terminator.
-/

namespace Tailr

/-- The integer value of i64::MIN. -/
def i64Min : Int := -(2 ^ 63)

/-- The integer value of i64::MAX. -/
def i64Max : Int := 2 ^ 63 - 1

/-- The enum TakeValue of src/lib.rs lines 26-30: PlusZero is the "+0"
sentinel, TakeNum carries the signed 64-bit count. -/
inductive TakeValue where
  | PlusZero : TakeValue
  | TakeNum : Int → TakeValue
  deriving DecidableEq

/-- The error kinds of std::num::ParseIntError that i64::from_str can
produce: empty input, a non-digit character (also a lone sign), and the two
overflow directions. -/
inductive ParseIntError where
  | empty : ParseIntError
  | invalidDigit : ParseIntError
  | posOverflow : ParseIntError
  | negOverflow : ParseIntError
  deriving DecidableEq

/-- Rust char::to_digit(10).is_some(): the character is an ASCII digit. -/
def isAsciiDigit (c : Char) : Bool := 48 ≤ c.toNat && c.toNat ≤ 57

/-- The accumulation loop of the Rust integer parser i64::from_str: per
character, check it is a digit, multiply the accumulator by 10 with an
overflow check, then add (positive) or subtract (negative) the digit with an
overflow check; each failed check reports the overflow direction. -/
def parseI64Core (positive : Bool) : List Char → Int → Except ParseIntError Int
  | [], acc => .ok acc
  | c :: cs, acc =>
    if isAsciiDigit c then
      let m := acc * 10
      if m < i64Min ∨ i64Max < m then
        .error (if positive then .posOverflow else .negOverflow)
      else
        let r := if positive then m + ((c.toNat : Int) - 48) else m - ((c.toNat : Int) - 48)
        if r < i64Min ∨ i64Max < r then
          .error (if positive then .posOverflow else .negOverflow)
        else parseI64Core positive cs r
    else .error .invalidDigit

/-- Rust i64::from_str: an optional single leading sign followed by one or
more ASCII digits, parsed by parseI64Core with incremental overflow checks.
The empty string is the Empty error; a sign with no digits is InvalidDigit. -/
def parseI64 (s : String) : Except ParseIntError Int :=
  match s.data with
  | [] => .error .empty
  | c :: cs =>
    if c = '+' then
      if cs.isEmpty then .error .invalidDigit else parseI64Core true cs 0
    else if c = '-' then
      if cs.isEmpty then .error .invalidDigit else parseI64Core false cs 0
    else parseI64Core true (c :: cs) 0

/-- Rust i64::wrapping_neg restricted to in-range arguments: ordinary
negation except that i64::MIN maps to itself. -/
def wrappingNeg (n : Int) : Int := if n = i64Min then n else -n

/-- Rust str::starts_with with the char '+': the first character is '+'. -/
def startsWithPlus (s : String) : Bool :=
  match s.data with
  | [] => false
  | c :: _ => c = '+'

/-- Rust str::starts_with with the char set ['+', '-']: the first character
is a sign. -/
def startsWithSign (s : String) : Bool :=
  match s.data with
  | [] => false
  | c :: _ => c = '+' || c = '-'

/-- The numeric value computed inside TakeValue::from_str, src/lib.rs lines
36-39: a string starting with '+' or '-' is parsed as a signed integer
directly; otherwise the digits are parsed the same way and the result is
negated with wrapping_neg. -/
def tv_num (s : String) : Except ParseIntError Int :=
  if startsWithSign s then parseI64 s else (parseI64 s).map wrappingNeg

/-- TakeValue::from_str, src/lib.rs lines 35-45: compute the numeric value,
then return the PlusZero sentinel when the value is zero and the string
starts with '+', and TakeNum of the value otherwise. -/
def from_str (s : String) : Except ParseIntError TakeValue :=
  match tv_num s with
  | .error e => .error e
  | .ok num =>
    if num = 0 ∧ startsWithPlus s then .ok .PlusZero else .ok (.TakeNum num)

/-- get_start_index, src/lib.rs lines 121-142. The Rust operations translate
as: num.max(0) as u64 is (max num 0).toNat (the cast is exact because the
value is non-negative), num.unsigned_abs() is num.natAbs,
total.saturating_sub is truncated Nat subtraction, and num as u64 - 1 is
num.toNat - 1 (num is positive on that branch). -/
def get_start_index (take_val : TakeValue) (total : Nat) : Option Nat :=
  match take_val with
  | .PlusZero => if total > 0 then some 0 else none
  | .TakeNum num =>
    if num = 0 ∨ total = 0 ∨ (max num 0).toNat > total then none
    else some (if num < 0 then total - num.natAbs else num.toNat - 1)

/-- The six-case start-index algorithm exactly as spec section 4.3 lists it,
read as an ordered case analysis: sentinel, explicit zero, empty file,
positive offset beyond the end, positive offset in range, negative offset
counted back from the end with saturation at zero. -/
def resolve_sixcase (spec : TakeValue) (total : Nat) : Option Nat :=
  match spec with
  | .PlusZero => if total > 0 then some 0 else none
  | .TakeNum n =>
    if n = 0 then none
    else if total = 0 then none
    else if 0 < n ∧ total < n.toNat then none
    else if 0 < n then some (n.toNat - 1)
    else some (total - n.natAbs)

/-- Unsigned 64-bit subtraction with the Rust overflow check made explicit:
none models the panic of an underflowing u64 subtraction. -/
def u64Sub (a b : Nat) : Option Nat := if b ≤ a then some (a - b) else none

/-- get_start_index with every Rust operation that can panic modelled as
checked, none meaning a panic. The only panicking candidate is the u64
subtraction num as u64 - 1; max, the non-negative i64-to-u64 cast,
unsigned_abs and saturating_sub are total by construction. -/
def get_start_index_checked (take_val : TakeValue) (total : Nat) : Option (Option Nat) :=
  match take_val with
  | .PlusZero => some (if total > 0 then some 0 else none)
  | .TakeNum num =>
    if num = 0 ∨ total = 0 ∨ (max num 0).toNat > total then some none
    else if num < 0 then some (some (total - num.natAbs))
    else (u64Sub num.toNat 1).map some

/-- The integer obtained by folding decimal digits onto an accumulator, in
the orientation of the positive branch of parseI64Core. -/
def valFrom (acc : Int) : List Char → Int
  | [] => acc
  | c :: cs => valFrom (acc * 10 + ((c.toNat : Int) - 48)) cs

/-- The integer obtained by folding decimal digits onto an accumulator, in
the orientation of the negative branch of parseI64Core. -/
def valFromNeg (acc : Int) : List Char → Int
  | [] => acc
  | c :: cs => valFromNeg (acc * 10 - ((c.toNat : Int) - 48)) cs

/-- Decimal digit characters of a natural number, most significant first. -/
def natDigits (n : Nat) : List Char :=
  if n < 10 then [Char.ofNat (48 + n)]
  else natDigits (n / 10) ++ [Char.ofNat (48 + n % 10)]
termination_by n
decreasing_by exact Nat.div_lt_self (by omega) (by omega)

/-- Formatting with an explicit leading sign, as claim C3 words it: a
leading minus for negative values and a leading plus otherwise, followed by
the decimal digits of the magnitude. -/
def fmtSigned (n : Int) : String :=
  if n < 0 then ⟨'-' :: natDigits n.natAbs⟩ else ⟨'+' :: natDigits n.natAbs⟩

/-- The amended C5 validity predicate, phrased from the spec grammar: an
optional single leading sign with at least one character after it, every
character after the sign an ASCII digit, and the digit value within the
signed 64-bit range: magnitude at most 2^63 for a leading minus, and at most
2^63 - 1 otherwise (bare digits are range-checked before the wrapped
negation). -/
def specParseOk (s : String) : Prop :=
  match s.data with
  | [] => False
  | c :: cs =>
    if c = '-' then
      cs ≠ [] ∧ (∀ x ∈ cs, isAsciiDigit x = true) ∧ valFrom 0 cs ≤ 2 ^ 63
    else if c = '+' then
      cs ≠ [] ∧ (∀ x ∈ cs, isAsciiDigit x = true) ∧ valFrom 0 cs ≤ 2 ^ 63 - 1
    else
      (∀ x ∈ c :: cs, isAsciiDigit x = true) ∧ valFrom 0 (c :: cs) ≤ 2 ^ 63 - 1

/-- BufReader::read_until with delimiter 10 on a byte list: the consumed
chunk (up to and including the first 10, or the whole input when no 10
occurs) paired with the unconsumed remainder. -/
def read_until : List Nat → List Nat × List Nat
  | [] => ([], [])
  | b :: bs =>
    if b = 10 then ([b], bs)
    else (b :: (read_until bs).1, (read_until bs).2)

/-- The loop of count_lines_bytes, src/lib.rs lines 79-87: read one chunk at
a time, stopping at a zero-byte read, otherwise adding one line and the
number of bytes read. -/
def count_go (bs : List Nat) (num_lines num_bytes : Nat) : Nat × Nat :=
  if (read_until bs).1.length = 0 then (num_lines, num_bytes)
  else count_go (read_until bs).2 (num_lines + 1) (num_bytes + (read_until bs).1.length)
termination_by bs.length
decreasing_by
  have happ : ∀ l : List Nat, (read_until l).1 ++ (read_until l).2 = l := by
    intro l
    induction l with
    | nil => rfl
    | cons b t ih =>
      by_cases hb : b = 10
      · simp [read_until, hb]
      · simp [read_until, hb, ih]
  have hlen := congrArg List.length (happ bs)
  simp only [List.length_append] at hlen
  omega

/-- count_lines_bytes, src/lib.rs lines 74-89, at the level of the file
content: the loop starts with zero lines and zero bytes. -/
def count_lines_bytes (content : List Nat) : Nat × Nat :=
  count_go content 0 0

/-- Line count as claim C6 words it: one line per line-terminator byte, plus
one more when the file is nonempty and its final line lacks the trailing
terminator, that final line counting as a full line. -/
def specLines (content : List Nat) : Nat :=
  content.count 10 + (if content ≠ [] ∧ content.getLast? ≠ some 10 then 1 else 0)

/-- A UTF-8 continuation byte, 0x80 to 0xBF. -/
def isCont (b : Nat) : Bool := 128 ≤ b && b ≤ 191

/-- The admissible range of the second byte of a multi-byte UTF-8 sequence,
given its first byte, per the Rust standard library validation tables. -/
def secondOk (b1 b2 : Nat) : Bool :=
  if b1 = 224 then 160 ≤ b2 && b2 ≤ 191
  else if b1 = 237 then 128 ≤ b2 && b2 ≤ 159
  else if b1 = 240 then 144 ≤ b2 && b2 ≤ 191
  else if b1 = 244 then 128 ≤ b2 && b2 ≤ 143
  else isCont b2

/-- The UTF-8 encoding of U+FFFD, the replacement character. -/
def rCHAR : List Nat := [239, 191, 189]

/-- Rust String::from_utf8_lossy followed by printing, at the byte level:
valid UTF-8 sequences pass through unchanged; each maximal invalid
subsequence (the bytes consumed before the offending byte, or a truncated
trailing sequence) is replaced by U+FFFD. The branch ranges mirror the Rust
standard library UTF-8 validation. -/
def utf8Lossy : List Nat → List Nat
  | [] => []
  | b :: bs =>
    if b ≤ 127 then b :: utf8Lossy bs
    else if 194 ≤ b ∧ b ≤ 223 then
      match bs with
      | [] => rCHAR
      | b2 :: bs2 =>
        if isCont b2 then b :: b2 :: utf8Lossy bs2
        else rCHAR ++ utf8Lossy (b2 :: bs2)
    else if 224 ≤ b ∧ b ≤ 239 then
      match bs with
      | [] => rCHAR
      | b2 :: bs2 =>
        if secondOk b b2 then
          match bs2 with
          | [] => rCHAR
          | b3 :: bs3 =>
            if isCont b3 then b :: b2 :: b3 :: utf8Lossy bs3
            else rCHAR ++ utf8Lossy (b3 :: bs3)
        else rCHAR ++ utf8Lossy (b2 :: bs2)
    else if 240 ≤ b ∧ b ≤ 244 then
      match bs with
      | [] => rCHAR
      | b2 :: bs2 =>
        if secondOk b b2 then
          match bs2 with
          | [] => rCHAR
          | b3 :: bs3 =>
            if isCont b3 then
              match bs3 with
              | [] => rCHAR
              | b4 :: bs4 =>
                if isCont b4 then b :: b2 :: b3 :: b4 :: utf8Lossy bs4
                else rCHAR ++ utf8Lossy (b4 :: bs4)
            else rCHAR ++ utf8Lossy (b3 :: bs3)
        else rCHAR ++ utf8Lossy (b2 :: bs2)
    else rCHAR ++ utf8Lossy bs

/-- Validity of a byte list as UTF-8, with the same case analysis as the
Rust standard library validation (and as utf8Lossy). -/
def validUtf8 : List Nat → Bool
  | [] => true
  | b :: bs =>
    if b ≤ 127 then validUtf8 bs
    else if 194 ≤ b ∧ b ≤ 223 then
      match bs with
      | [] => false
      | b2 :: bs2 => if isCont b2 then validUtf8 bs2 else false
    else if 224 ≤ b ∧ b ≤ 239 then
      match bs with
      | [] => false
      | b2 :: bs2 =>
        if secondOk b b2 then
          match bs2 with
          | [] => false
          | b3 :: bs3 => if isCont b3 then validUtf8 bs3 else false
        else false
    else if 240 ≤ b ∧ b ≤ 244 then
      match bs with
      | [] => false
      | b2 :: bs2 =>
        if secondOk b b2 then
          match bs2 with
          | [] => false
          | b3 :: bs3 =>
            if isCont b3 then
              match bs3 with
              | [] => false
              | b4 :: bs4 => if isCont b4 then validUtf8 bs4 else false
            else false
        else false
    else false

/-- print_bytes, src/lib.rs lines 91-104, at the level of the file content:
resolve the start index; when none, print nothing; otherwise seek to it
(drop that many bytes), read to end, and print the buffer through
String::from_utf8_lossy when it is nonempty. Returns the bytes written to
standard output. -/
def print_bytes (content : List Nat) (num_bytes : TakeValue) (total_bytes : Nat) : List Nat :=
  match get_start_index num_bytes total_bytes with
  | none => []
  | some start =>
    if (content.drop start).isEmpty then [] else utf8Lossy (content.drop start)

/-- The loop of print_lines, src/lib.rs lines 110-116: read chunks from the
beginning, printing each (through the lossy conversion) once the running
line index has reached the start line. -/
def print_lines_go (start : Nat) (bs : List Nat) (line_num : Nat) : List Nat :=
  if (read_until bs).1.length = 0 then []
  else
    (if line_num ≥ start then utf8Lossy (read_until bs).1 else []) ++
      print_lines_go start (read_until bs).2 (line_num + 1)
termination_by bs.length
decreasing_by
  have happ : ∀ l : List Nat, (read_until l).1 ++ (read_until l).2 = l := by
    intro l
    induction l with
    | nil => rfl
    | cons b t ih =>
      by_cases hb : b = 10
      · simp [read_until, hb]
      · simp [read_until, hb, ih]
  have hlen := congrArg List.length (happ bs)
  simp only [List.length_append] at hlen
  omega

/-- print_lines, src/lib.rs lines 106-119, at the level of the file content:
resolve the start index; when none, print nothing; otherwise scan the lines
from the beginning, printing from the start line on. Returns the bytes
written to standard output. -/
def print_lines (content : List Nat) (num_lines : TakeValue) (total_lines : Nat) : List Nat :=
  match get_start_index num_lines total_lines with
  | none => []
  | some start => print_lines_go start content 0

/-- One observable output action of the orchestrator: a header line on
standard output (pre is the blank line printed before every header but the
first), a block of content bytes on standard output, or a per-file
diagnostic line on the error stream. -/
inductive Event where
  | header : String → String → Event
  | content : List Nat → Event
  | diag : String → Event
  deriving DecidableEq

/-- count_lines_bytes as called from run, src/lib.rs line 61: it reopens the
file by name, so the file system lookup happens again; a missing file is an
error that the question-mark operator propagates. The file system is a pure
map from names to optional contents. -/
def count_lines_bytes_file (fs : String → Option (List Nat)) (filename : String) :
    Except String (Nat × Nat) :=
  match fs filename with
  | none => .error filename
  | some content => .ok (count_lines_bytes content)

/-- The events the body of the run loop emits for one file, src/lib.rs lines
55-68: a diagnostic when the open fails; otherwise an optional header (when
there are several files and quiet is unset, with a leading blank line except
for the first file) followed by the output of the selected emitter computed
from the freshly counted totals. -/
def fileEvents (fs : String → Option (List Nat)) (bytes : Option TakeValue)
    (lines : TakeValue) (quiet : Bool) (num_files file_num : Nat)
    (filename : String) : List Event :=
  match fs filename with
  | none => [.diag filename]
  | some content =>
    (if ¬quiet ∧ num_files > 1 then
      [.header (if file_num > 0 then "\n" else "") filename] else []) ++
    [.content (match bytes with
      | some num_bytes => print_bytes content num_bytes (count_lines_bytes content).2
      | none => print_lines content lines (count_lines_bytes content).1)]

/-- The loop of run, src/lib.rs lines 54-70, over the enumerated file list:
open failures produce a diagnostic and continue; afterwards the header is
printed, then count_lines_bytes is consulted again through the question-mark
operator (whose error aborts the whole run), then the chosen emitter output
is produced. -/
def runLoop (fs : String → Option (List Nat)) (bytes : Option TakeValue)
    (lines : TakeValue) (quiet : Bool) (num_files : Nat) :
    List (Nat × String) → Except String (List Event)
  | [] => .ok []
  | (file_num, filename) :: rest =>
    match fs filename with
    | none => (runLoop fs bytes lines quiet num_files rest).map
        (fun evs => .diag filename :: evs)
    | some content =>
      match count_lines_bytes_file fs filename with
      | .error e => .error e
      | .ok (total_lines, total_bytes) =>
        (runLoop fs bytes lines quiet num_files rest).map (fun evs =>
          (if ¬quiet ∧ num_files > 1 then
            [Event.header (if file_num > 0 then "\n" else "") filename] else []) ++
          Event.content (match bytes with
            | some num_bytes => print_bytes content num_bytes total_bytes
            | none => print_lines content lines total_lines) :: evs)

/-- run, src/lib.rs lines 52-72: iterate the enumerated file list and return
the emitted events, or the error that aborted the loop. -/
def run (files : List String) (lines : TakeValue) (bytes : Option TakeValue)
    (quiet : Bool) (fs : String → Option (List Nat)) : Except String (List Event) :=
  runLoop fs bytes lines quiet files.length files.enum

/-- The per-file events of the whole list, concatenated in order: the spec
side of claim C9, every file contributing its own events independently of
any earlier open failure. -/
def runEvents (files : List String) (lines : TakeValue) (bytes : Option TakeValue)
    (quiet : Bool) (fs : String → Option (List Nat)) : List Event :=
  files.enum.flatMap (fun p => fileEvents fs bytes lines quiet files.length p.1 p.2)

/-- The non-negative clamp before the cast: taking toNat after max with zero
is plain toNat, since toNat already clamps negatives to zero. -/
lemma toNat_max_zero (n : Int) : (max n 0).toNat = n.toNat := by
  rcases le_total n 0 with h | h
  · rw [max_eq_right h]; omega
  · rw [max_eq_left h]

/-- C1: for every offset specification and every total, get_start_index
returns exactly what the six-case algorithm of spec section 4.3 prescribes. -/
theorem get_start_index_eq_sixcase (tv : TakeValue) (total : Nat) :
    get_start_index tv total = resolve_sixcase tv total := by
  cases tv with
  | PlusZero => rfl
  | TakeNum n =>
    simp only [get_start_index, resolve_sixcase, toNat_max_zero]
    split_ifs <;> first | rfl | (exfalso; omega)

/-- C8: get_start_index is total and panic-free: the checked evaluation, in
which any overflowing machine operation would surface as none, always
returns some value, and that value is what get_start_index computes. -/
theorem get_start_index_never_panics (tv : TakeValue) (total : Nat) :
    get_start_index_checked tv total = some (get_start_index tv total) := by
  cases tv with
  | PlusZero => rfl
  | TakeNum n =>
    simp only [get_start_index_checked, get_start_index, toNat_max_zero]
    split_ifs with hguard hn
    · rfl
    · rfl
    · have h1 : 1 ≤ n.toNat := by omega
      simp [u64Sub, h1]

/-- C10: whenever get_start_index returns some index, the total is positive
and the index is strictly below the total. -/
theorem get_start_index_in_range (tv : TakeValue) (total i : Nat)
    (h : get_start_index tv total = some i) : 0 < total ∧ i < total := by
  cases tv with
  | PlusZero =>
    simp only [get_start_index] at h
    split_ifs at h with ht
    have hi := Option.some.inj h
    exact ⟨ht, by omega⟩
  | TakeNum n =>
    simp only [get_start_index, toNat_max_zero] at h
    split_ifs at h with hguard hn
    · have hi := Option.some.inj h
      constructor <;> omega
    · have hi := Option.some.inj h
      constructor <;> omega

/-- Witness for C10 at a concrete input: the last line of a ten-line file
starts at index 9. -/
theorem get_start_index_in_range_w : 0 < 10 ∧ 9 < 10 :=
  get_start_index_in_range (.TakeNum (-1)) 10 9 (by decide)

/-- Numeric bounds of an ASCII digit character. -/
lemma digit_bounds {c : Char} (h : isAsciiDigit c = true) :
    48 ≤ c.toNat ∧ c.toNat ≤ 57 := by
  simpa [isAsciiDigit] using h

/-- Folding digits onto a non-negative accumulator never decreases it. -/
lemma le_valFrom (ds : List Char) : ∀ acc : Int,
    (∀ c ∈ ds, isAsciiDigit c = true) → 0 ≤ acc → acc ≤ valFrom acc ds := by
  induction ds with
  | nil => intro acc _ _; exact le_refl acc
  | cons c cs ih =>
    intro acc hd hacc
    have hc := digit_bounds (hd c (List.mem_cons_self c cs))
    have hstep : acc ≤ acc * 10 + ((c.toNat : Int) - 48) := by omega
    have hrest := ih (acc * 10 + ((c.toNat : Int) - 48))
      (fun x hx => hd x (List.mem_cons_of_mem c hx)) (by omega)
    calc acc ≤ acc * 10 + ((c.toNat : Int) - 48) := hstep
      _ ≤ valFrom (acc * 10 + ((c.toNat : Int) - 48)) cs := hrest
      _ = valFrom acc (c :: cs) := rfl

/-- Folding digits below a non-positive accumulator never increases it. -/
lemma valFromNeg_le (ds : List Char) : ∀ acc : Int,
    (∀ c ∈ ds, isAsciiDigit c = true) → acc ≤ 0 → valFromNeg acc ds ≤ acc := by
  induction ds with
  | nil => intro acc _ _; exact le_refl acc
  | cons c cs ih =>
    intro acc hd hacc
    have hc := digit_bounds (hd c (List.mem_cons_self c cs))
    have hstep : acc * 10 - ((c.toNat : Int) - 48) ≤ acc := by omega
    have hrest := ih (acc * 10 - ((c.toNat : Int) - 48))
      (fun x hx => hd x (List.mem_cons_of_mem c hx)) (by omega)
    calc valFromNeg acc (c :: cs) = valFromNeg (acc * 10 - ((c.toNat : Int) - 48)) cs := rfl
      _ ≤ acc * 10 - ((c.toNat : Int) - 48) := hrest
      _ ≤ acc := hstep

/-- The negative fold is the negation of the positive fold of the negated
accumulator. -/
lemma valFromNeg_eq_neg (ds : List Char) : ∀ acc : Int,
    valFromNeg acc ds = -(valFrom (-acc) ds) := by
  induction ds with
  | nil => intro acc; simp [valFromNeg, valFrom]
  | cons c cs ih =>
    intro acc
    show valFromNeg (acc * 10 - ((c.toNat : Int) - 48)) cs = _
    rw [ih]
    congr 1
    show valFrom (-(acc * 10 - ((c.toNat : Int) - 48))) cs = valFrom (-acc * 10 + ((c.toNat : Int) - 48)) cs
    ring_nf

/-- Success of the positive accumulation loop: when every character is a
digit, the accumulator is in [0, i64Max] and the folded value stays within
i64Max, the loop returns exactly the folded value. -/
lemma parseI64Core_pos_ok (ds : List Char) : ∀ acc : Int,
    (∀ c ∈ ds, isAsciiDigit c = true) → 0 ≤ acc → valFrom acc ds ≤ i64Max →
    parseI64Core true ds acc = .ok (valFrom acc ds) := by
  induction ds with
  | nil => intro acc _ _ _; rfl
  | cons c cs ih =>
    intro acc hd hacc hmax
    have hc := digit_bounds (hd c (List.mem_cons_self c cs))
    have hdcs : ∀ x ∈ cs, isAsciiDigit x = true := fun x hx => hd x (List.mem_cons_of_mem c hx)
    have hval : valFrom acc (c :: cs) = valFrom (acc * 10 + ((c.toNat : Int) - 48)) cs := rfl
    have hacc2 : (0:Int) ≤ acc * 10 + ((c.toNat : Int) - 48) := by omega
    have hle2 : acc * 10 + ((c.toNat : Int) - 48) ≤ valFrom acc (c :: cs) := by
      rw [hval]; exact le_valFrom cs _ hdcs hacc2
    have hm_lo : ¬ (acc * 10 < i64Min) := by
      have : (0:Int) ≤ acc * 10 := by omega
      simp only [i64Min]; omega
    have hm_hi : ¬ (i64Max < acc * 10) := by omega
    have hr_lo : ¬ (acc * 10 + ((c.toNat : Int) - 48) < i64Min) := by
      simp only [i64Min]; omega
    have hr_hi : ¬ (i64Max < acc * 10 + ((c.toNat : Int) - 48)) := by omega
    simp only [parseI64Core, hd c (List.mem_cons_self c cs), if_true]
    rw [if_neg (by push_neg; exact ⟨by omega, by omega⟩)]
    rw [if_neg (by push_neg; exact ⟨by omega, by omega⟩)]
    rw [hval]
    exact ih _ hdcs hacc2 (hval ▸ hmax)

/-- Success of the negative accumulation loop: when every character is a
digit, the accumulator is in [i64Min, 0] and the folded value stays within
i64Min, the loop returns exactly the folded value. -/
lemma parseI64Core_neg_ok (ds : List Char) : ∀ acc : Int,
    (∀ c ∈ ds, isAsciiDigit c = true) → acc ≤ 0 → i64Min ≤ valFromNeg acc ds →
    parseI64Core false ds acc = .ok (valFromNeg acc ds) := by
  induction ds with
  | nil => intro acc _ _ _; rfl
  | cons c cs ih =>
    intro acc hd hacc hmin
    have hc := digit_bounds (hd c (List.mem_cons_self c cs))
    have hdcs : ∀ x ∈ cs, isAsciiDigit x = true := fun x hx => hd x (List.mem_cons_of_mem c hx)
    have hval : valFromNeg acc (c :: cs) = valFromNeg (acc * 10 - ((c.toNat : Int) - 48)) cs := rfl
    have hacc2 : acc * 10 - ((c.toNat : Int) - 48) ≤ 0 := by omega
    have hle2 : valFromNeg acc (c :: cs) ≤ acc * 10 - ((c.toNat : Int) - 48) := by
      rw [hval]; exact valFromNeg_le cs _ hdcs hacc2
    have hmax' : (0:Int) < i64Max := by simp only [i64Max]; omega
    have hf : ¬(false = true) := by decide
    simp only [parseI64Core, hd c (List.mem_cons_self c cs), if_true, if_neg hf]
    rw [if_neg (by push_neg; exact ⟨by omega, by omega⟩)]
    rw [if_neg (by push_neg; exact ⟨by omega, by omega⟩)]
    rw [hval]
    exact ih _ hdcs hacc2 (hval ▸ hmin)

/-- The positive accumulation loop succeeds exactly when every character is
a digit and the folded value stays within i64Max. -/
lemma parseI64Core_pos_iff (ds : List Char) : ∀ acc : Int, 0 ≤ acc → acc ≤ i64Max →
    ((∃ v, parseI64Core true ds acc = .ok v) ↔
      ((∀ c ∈ ds, isAsciiDigit c = true) ∧ valFrom acc ds ≤ i64Max)) := by
  induction ds with
  | nil =>
    intro acc _ hmax
    simp [parseI64Core, valFrom, hmax]
  | cons c cs ih =>
    intro acc hacc hmax
    cases hdig : isAsciiDigit c with
    | false =>
      constructor
      · intro hex
        rcases hex with ⟨v, hv⟩
        simp [parseI64Core, hdig] at hv
      · rintro ⟨hall, -⟩
        exact absurd (hall c (List.mem_cons_self c cs)) (by simp [hdig])
    | true =>
      have hc := digit_bounds hdig
      have hval : valFrom acc (c :: cs) = valFrom (acc * 10 + ((c.toNat : Int) - 48)) cs := rfl
      by_cases hm : acc * 10 < i64Min ∨ i64Max < acc * 10
      · have hover : i64Max < acc * 10 := by
          rcases hm with hm | hm
          · exfalso; simp only [i64Min] at hm; omega
          · exact hm
        constructor
        · rintro ⟨v, hv⟩
          simp only [parseI64Core, hdig, if_true, if_pos hm] at hv
          exact Except.noConfusion hv
        · rintro ⟨hall, hle⟩
          exfalso
          have hge : acc * 10 + ((c.toNat : Int) - 48) ≤ valFrom acc (c :: cs) := by
            rw [hval]
            exact le_valFrom cs _ (fun x hx => hall x (List.mem_cons_of_mem c hx)) (by omega)
          omega
      · by_cases hr : acc * 10 + ((c.toNat : Int) - 48) < i64Min ∨
            i64Max < acc * 10 + ((c.toNat : Int) - 48)
        · have hover : i64Max < acc * 10 + ((c.toNat : Int) - 48) := by
            rcases hr with hr | hr
            · exfalso; simp only [i64Min] at hr; omega
            · exact hr
          constructor
          · rintro ⟨v, hv⟩
            simp only [parseI64Core, hdig, if_true, if_neg hm, if_pos hr] at hv
            exact Except.noConfusion hv
          · rintro ⟨hall, hle⟩
            exfalso
            have hge : acc * 10 + ((c.toNat : Int) - 48) ≤ valFrom acc (c :: cs) := by
              rw [hval]
              exact le_valFrom cs _ (fun x hx => hall x (List.mem_cons_of_mem c hx)) (by omega)
            omega
        · have hred : parseI64Core true (c :: cs) acc =
              parseI64Core true cs (acc * 10 + ((c.toNat : Int) - 48)) := by
            simp only [parseI64Core, hdig, if_true, if_neg hm, if_neg hr]
          push_neg at hr
          rw [hred, hval, ih _ (by omega) hr.2]
          simp only [List.forall_mem_cons, hdig, true_and]

/-- The negative accumulation loop succeeds exactly when every character is
a digit and the folded value stays within i64Min. -/
lemma parseI64Core_neg_iff (ds : List Char) : ∀ acc : Int, i64Min ≤ acc → acc ≤ 0 →
    ((∃ v, parseI64Core false ds acc = .ok v) ↔
      ((∀ c ∈ ds, isAsciiDigit c = true) ∧ i64Min ≤ valFromNeg acc ds)) := by
  induction ds with
  | nil =>
    intro acc hmin _
    simp [parseI64Core, valFromNeg, hmin]
  | cons c cs ih =>
    intro acc hmin hacc
    cases hdig : isAsciiDigit c with
    | false =>
      constructor
      · rintro ⟨v, hv⟩
        simp [parseI64Core, hdig] at hv
      · rintro ⟨hall, -⟩
        exact absurd (hall c (List.mem_cons_self c cs)) (by simp [hdig])
    | true =>
      have hc := digit_bounds hdig
      have hval : valFromNeg acc (c :: cs) = valFromNeg (acc * 10 - ((c.toNat : Int) - 48)) cs := rfl
      have hmax' : (0:Int) < i64Max := by simp only [i64Max]; omega
      have hf : ¬(false = true) := by decide
      by_cases hm : acc * 10 < i64Min ∨ i64Max < acc * 10
      · have hover : acc * 10 < i64Min := by
          rcases hm with hm | hm
          · exact hm
          · exfalso; omega
        constructor
        · rintro ⟨v, hv⟩
          simp only [parseI64Core, hdig, if_true, if_pos hm] at hv
          exact Except.noConfusion hv
        · rintro ⟨hall, hle⟩
          exfalso
          have hge : valFromNeg acc (c :: cs) ≤ acc * 10 - ((c.toNat : Int) - 48) := by
            rw [hval]
            exact valFromNeg_le cs _ (fun x hx => hall x (List.mem_cons_of_mem c hx)) (by omega)
          omega
      · by_cases hr : acc * 10 - ((c.toNat : Int) - 48) < i64Min ∨
            i64Max < acc * 10 - ((c.toNat : Int) - 48)
        · have hover : acc * 10 - ((c.toNat : Int) - 48) < i64Min := by
            rcases hr with hr | hr
            · exact hr
            · exfalso; omega
          constructor
          · rintro ⟨v, hv⟩
            simp only [parseI64Core, hdig, if_true, if_neg hf, if_neg hm, if_pos hr] at hv
            exact Except.noConfusion hv
          · rintro ⟨hall, hle⟩
            exfalso
            have hge : valFromNeg acc (c :: cs) ≤ acc * 10 - ((c.toNat : Int) - 48) := by
              rw [hval]
              exact valFromNeg_le cs _ (fun x hx => hall x (List.mem_cons_of_mem c hx)) (by omega)
            omega
        · have hred : parseI64Core false (c :: cs) acc =
              parseI64Core false cs (acc * 10 - ((c.toNat : Int) - 48)) := by
            simp only [parseI64Core, hdig, if_true]
            simp [hm, hr]
          push_neg at hr
          rw [hred, hval, ih _ hr.1 (by omega)]
          simp only [List.forall_mem_cons, hdig, true_and]

/-- parseI64 succeeds exactly on the spec grammar with an in-range value. -/
lemma parseI64_ok_iff (s : String) : (∃ v, parseI64 s = .ok v) ↔ specParseOk s := by
  have h0max : (0:Int) ≤ i64Max := by simp only [i64Max]; omega
  have h0min : i64Min ≤ (0:Int) := by simp only [i64Min]; omega
  rcases hd : s.data with _ | ⟨c, cs⟩
  · simp [parseI64, specParseOk, hd]
  · simp only [parseI64, specParseOk, hd]
    by_cases hplus : c = '+'
    · subst hplus
      rcases cs with _ | ⟨d, ds⟩
      · simp
      · show (∃ v, parseI64Core true (d :: ds) 0 = .ok v) ↔
          (d :: ds ≠ [] ∧ (∀ x ∈ d :: ds, isAsciiDigit x = true) ∧ valFrom 0 (d :: ds) ≤ 2 ^ 63 - 1)
        rw [parseI64Core_pos_iff (d :: ds) 0 le_rfl h0max]
        simp only [i64Max]
        simp
    · by_cases hminus : c = '-'
      · subst hminus
        rcases cs with _ | ⟨d, ds⟩
        · simp
        · show (∃ v, parseI64Core false (d :: ds) 0 = .ok v) ↔
            (d :: ds ≠ [] ∧ (∀ x ∈ d :: ds, isAsciiDigit x = true) ∧ valFrom 0 (d :: ds) ≤ 2 ^ 63)
          rw [parseI64Core_neg_iff (d :: ds) 0 h0min le_rfl, valFromNeg_eq_neg]
          simp only [neg_zero, i64Min]
          constructor
          · rintro ⟨hall, hv⟩
            exact ⟨by simp, hall, by omega⟩
          · rintro ⟨-, hall, hv⟩
            exact ⟨hall, by omega⟩
      · rw [if_neg hplus, if_neg hminus, if_neg hminus, if_neg hplus]
        exact parseI64Core_pos_iff (c :: cs) 0 le_rfl h0max

/-- Success of tv_num coincides with success of the underlying parse: the
wrapped negation applied on the unsigned branch cannot fail. -/
lemma tv_num_ok_iff (s : String) : (∃ n, tv_num s = .ok n) ↔ (∃ v, parseI64 s = .ok v) := by
  unfold tv_num
  by_cases h : startsWithSign s = true
  · rw [if_pos h]
  · rw [if_neg h]
    cases hp : parseI64 s <;> simp [Except.map]

/-- Success of from_str coincides with success of tv_num: the final
sentinel-or-number step cannot fail. -/
lemma from_str_ok_iff_num (s : String) : (∃ v, from_str s = .ok v) ↔ (∃ n, tv_num s = .ok n) := by
  cases h : tv_num s with
  | error e => simp [from_str, h]
  | ok num =>
    simp only [from_str, h]
    constructor
    · intro _
      exact ⟨num, rfl⟩
    · intro _
      by_cases hc : num = 0 ∧ startsWithPlus s = true
      · exact ⟨.PlusZero, by rw [if_pos hc]⟩
      · exact ⟨.TakeNum num, by rw [if_neg hc]⟩

/-- C5 (amended): from_str succeeds exactly when the input is an optional
single leading sign followed by at least one character, all of them ASCII
digits, whose value is within the signed 64-bit range (magnitude at most
2^63 for a leading minus, at most 2^63 - 1 otherwise); all other inputs
fail. -/
theorem from_str_ok_characterization (s : String) :
    (∃ v, from_str s = .ok v) ↔ specParseOk s :=
  (from_str_ok_iff_num s).trans ((tv_num_ok_iff s).trans (parseI64_ok_iff s))

/-- Witness for C5 (amended) at the concrete input "+3": the
characterization applied to a successful parse yields the spec validity. -/
theorem from_str_ok_characterization_w : specParseOk "+3" :=
  (from_str_ok_characterization "+3").mp ⟨.TakeNum 3, rfl⟩

/-- C5 as stated is false on two counts: parsing "+" fails with InvalidDigit
although no character besides the single optional leading sign is a
non-digit and no range is exceeded, and an out-of-range value fails with the
PosOverflow error kind, not InvalidDigit. -/
theorem from_str_claim_c5_cex :
    from_str "+" = .error .invalidDigit ∧
    from_str "+9223372036854775808" = .error .posOverflow ∧
    ParseIntError.posOverflow ≠ ParseIntError.invalidDigit :=
  ⟨rfl, rfl, by decide⟩

/-- C2 as stated is false: parsing the decimal text of i64::MAX yields
TakeNum of minus 9223372036854775807, which is one greater than i64::MIN,
not one less than it, and also not the two-complement wrap-around of one
less than i64::MIN (which would be i64::MAX). -/
theorem from_str_i64max_cex :
    from_str "9223372036854775807" = .ok (.TakeNum (-9223372036854775807)) ∧
    (-9223372036854775807 : Int) ≠ i64Min - 1 ∧
    (-9223372036854775807 : Int) ≠ i64Max :=
  ⟨rfl, by decide, by decide⟩

/-- C2 (amended): parsing the unsigned decimal text of i64::MAX succeeds and
yields TakeNum of the wrapped negation of i64::MAX, the value one greater
than i64::MIN, rather than failing with overflow. -/
theorem from_str_i64max_wrapped :
    from_str "9223372036854775807" = .ok (.TakeNum (wrappingNeg i64Max)) ∧
    wrappingNeg i64Max = i64Min + 1 :=
  ⟨rfl, by decide⟩

/-- C4: parsing "+0" yields the sentinel and never TakeNum 0, parsing "0"
yields TakeNum 0, and in general from_str returns PlusZero exactly when the
computed numeric value is zero and the string starts with '+'. -/
theorem from_str_plus_zero :
    from_str "+0" = .ok .PlusZero ∧
    from_str "0" = .ok (.TakeNum 0) ∧
    ∀ s : String, (from_str s = .ok .PlusZero ↔ (tv_num s = .ok 0 ∧ startsWithPlus s = true)) := by
  refine ⟨rfl, rfl, fun s => ?_⟩
  cases h : tv_num s with
  | error e => simp [from_str, h]
  | ok num =>
    simp only [from_str, h]
    by_cases hc : num = 0 ∧ startsWithPlus s = true
    · rw [if_pos hc]
      simp [hc.1, hc.2]
    · rw [if_neg hc]
      simp only [Except.ok.injEq]
      constructor
      · intro hbad
        exact TakeValue.noConfusion hbad
      · rintro ⟨hn, hp⟩
        exact absurd ⟨hn, hp⟩ hc

/-- Witness for C4 at the concrete inputs of the claim. -/
theorem from_str_plus_zero_w :
    from_str "+0" = .ok .PlusZero ∧ from_str "0" = .ok (.TakeNum 0) :=
  ⟨from_str_plus_zero.1, from_str_plus_zero.2.1⟩

/-- The character built from 48 + m reads back as the byte 48 + m. -/
lemma digitChar_toNat (m : Nat) (h : m < 10) : (Char.ofNat (48 + m)).toNat = 48 + m := by
  interval_cases m <;> rfl

/-- natDigits never returns the empty list. -/
lemma natDigits_ne_nil (n : Nat) : natDigits n ≠ [] := by
  rw [natDigits]
  split_ifs
  · simp
  · simp

/-- The digits of zero. -/
lemma natDigits_zero : natDigits 0 = ['0'] := by
  rw [natDigits, if_pos (by decide : (0:Nat) < 10)]

/-- Every character produced by natDigits is an ASCII digit. -/
lemma natDigits_digits (n : Nat) : ∀ c ∈ natDigits n, isAsciiDigit c = true := by
  induction n using natDigits.induct with
  | case1 n h =>
    intro c hc
    rw [natDigits, if_pos h] at hc
    rcases List.mem_singleton.mp hc with rfl
    simp only [isAsciiDigit, digitChar_toNat n h, Bool.and_eq_true, decide_eq_true_eq]
    omega
  | case2 n h ih =>
    intro c hc
    rw [natDigits, if_neg h] at hc
    rcases List.mem_append.mp hc with hc | hc
    · exact ih c hc
    · rcases List.mem_singleton.mp hc with rfl
      have h10 : n % 10 < 10 := Nat.mod_lt _ (by omega)
      simp only [isAsciiDigit, digitChar_toNat _ h10, Bool.and_eq_true, decide_eq_true_eq]
      omega

/-- Appending one digit multiplies the folded value by ten and adds it. -/
lemma valFrom_append (ds : List Char) : ∀ (c : Char) (acc : Int),
    valFrom acc (ds ++ [c]) = 10 * valFrom acc ds + ((c.toNat : Int) - 48) := by
  induction ds with
  | nil =>
    intro c acc
    show acc * 10 + ((c.toNat : Int) - 48) = 10 * acc + ((c.toNat : Int) - 48)
    ring
  | cons x xs ih =>
    intro c acc
    exact ih c (acc * 10 + ((x.toNat : Int) - 48))

/-- Folding the digits of n onto acc yields acc shifted past them plus n. -/
lemma valFrom_natDigits (n : Nat) : ∀ acc : Int,
    valFrom acc (natDigits n) = acc * 10 ^ (natDigits n).length + (n : Int) := by
  induction n using natDigits.induct with
  | case1 n h =>
    intro acc
    rw [natDigits, if_pos h]
    show acc * 10 + (((Char.ofNat (48 + n)).toNat : Int) - 48) = _
    rw [digitChar_toNat n h]
    simp only [List.length_singleton, pow_one]
    push_cast
    ring
  | case2 n h ih =>
    intro acc
    rw [natDigits, if_neg h]
    have h10 : n % 10 < 10 := Nat.mod_lt _ (by omega)
    rw [valFrom_append, ih, digitChar_toNat _ h10]
    simp only [List.length_append, List.length_singleton]
    rw [pow_succ]
    have hc48 : ((48 + n % 10 : Nat) : Int) = 48 + ((n % 10 : Nat) : Int) := by push_cast; ring
    have hdm : (10:Int) * ((n / 10 : Nat) : Int) + ((n % 10 : Nat) : Int) = (n : Int) := by omega
    rw [hc48]
    linear_combination hdm

/-- C3 (amended): for every nonzero in-range signed 64-bit integer n,
formatting n with an explicit leading sign and parsing the result yields
TakeNum n exactly; n = 0 is the exception, where the formatted "+0" parses
to the sentinel instead. -/
theorem from_str_fmtSigned_roundtrip (n : Int) (h0 : n ≠ 0)
    (hlo : i64Min ≤ n) (hhi : n ≤ i64Max) :
    from_str (fmtSigned n) = .ok (.TakeNum n) := by
  obtain ⟨d, ds, hds⟩ := List.exists_cons_of_ne_nil (natDigits_ne_nil n.natAbs)
  have hall : ∀ c ∈ d :: ds, isAsciiDigit c = true := by
    rw [← hds]; exact natDigits_digits n.natAbs
  have hval : valFrom 0 (d :: ds) = (n.natAbs : Int) := by
    rw [← hds, valFrom_natDigits]
    simp
  by_cases hneg : n < 0
  · have hdata : (fmtSigned n).data = '-' :: d :: ds := by
      simp only [fmtSigned, if_pos hneg]
      show '-' :: natDigits n.natAbs = '-' :: d :: ds
      rw [hds]
    have hsign : startsWithSign (fmtSigned n) = true := by
      simp [startsWithSign, hdata]
    have hfold : valFromNeg 0 (d :: ds) = n := by
      rw [valFromNeg_eq_neg, neg_zero, hval]
      omega
    have hcore : parseI64Core false (d :: ds) 0 = .ok n := by
      rw [parseI64Core_neg_ok (d :: ds) 0 hall le_rfl (by rw [hfold]; exact hlo), hfold]
    have hparse : parseI64 (fmtSigned n) = .ok n := by
      simp only [parseI64, hdata]
      simpa using hcore
    have htv : tv_num (fmtSigned n) = .ok n := by
      unfold tv_num
      rw [hsign, if_pos rfl]
      exact hparse
    simp only [from_str, htv]
    rw [if_neg (by rintro ⟨h, -⟩; exact h0 h)]
  · have hdata : (fmtSigned n).data = '+' :: d :: ds := by
      simp only [fmtSigned, if_neg hneg]
      show '+' :: natDigits n.natAbs = '+' :: d :: ds
      rw [hds]
    have hsign : startsWithSign (fmtSigned n) = true := by
      simp [startsWithSign, hdata]
    have hfold : valFrom 0 (d :: ds) = n := by
      rw [hval]; omega
    have hcore : parseI64Core true (d :: ds) 0 = .ok n := by
      rw [parseI64Core_pos_ok (d :: ds) 0 hall le_rfl (by rw [hfold]; exact hhi), hfold]
    have hparse : parseI64 (fmtSigned n) = .ok n := by
      simp only [parseI64, hdata]
      simpa using hcore
    have htv : tv_num (fmtSigned n) = .ok n := by
      unfold tv_num
      rw [hsign, if_pos rfl]
      exact hparse
    simp only [from_str, htv]
    rw [if_neg (by rintro ⟨h, -⟩; exact h0 h)]

/-- Witness for C3 (amended) at the concrete input minus three. -/
theorem from_str_fmtSigned_roundtrip_w : from_str (fmtSigned (-3)) = .ok (.TakeNum (-3)) :=
  from_str_fmtSigned_roundtrip (-3) (by decide) (by decide) (by decide)

/-- C3 as stated is false at n = 0: formatting zero with an explicit sign
gives "+0", which parses to the PlusZero sentinel, not to TakeNum 0. -/
theorem fmtSigned_zero_cex :
    fmtSigned 0 = "+0" ∧
    from_str (fmtSigned 0) = .ok .PlusZero ∧
    (Except.ok TakeValue.PlusZero : Except ParseIntError TakeValue) ≠ .ok (.TakeNum 0) := by
  have hfmt : fmtSigned 0 = "+0" := by
    simp only [fmtSigned, if_neg (by decide : ¬((0:Int) < 0))]
    rw [show (0:Int).natAbs = 0 from rfl, natDigits_zero]
  refine ⟨hfmt, ?_, ?_⟩
  · rw [hfmt]; rfl
  · intro h
    exact TakeValue.noConfusion (Except.ok.inj h)

/-- The chunk and the remainder reassemble the input. -/
lemma read_until_append (bs : List Nat) :
    (read_until bs).1 ++ (read_until bs).2 = bs := by
  induction bs with
  | nil => rfl
  | cons b t ih =>
    by_cases hb : b = 10
    · simp [read_until, hb]
    · simp [read_until, hb, ih]

/-- A nonempty input always yields a nonempty chunk. -/
lemma read_until_fst_ne (bs : List Nat) (h : bs ≠ []) : (read_until bs).1 ≠ [] := by
  rcases bs with _ | ⟨b, t⟩
  · exact absurd rfl h
  · by_cases hb : b = 10
    · simp [read_until, hb]
    · simp [read_until, hb]

/-- A leading terminator byte contributes exactly one line. -/
lemma specLines_cons_10 (t : List Nat) : specLines (10 :: t) = 1 + specLines t := by
  rcases t with _ | ⟨c, t'⟩
  · simp [specLines]
  · simp only [specLines, List.count_cons, List.getLast?_cons_cons]
    simp
    omega

/-- A leading non-terminator byte joins the first line of a nonempty tail. -/
lemma specLines_cons_ne (b : Nat) (t : List Nat) (hb : b ≠ 10) (ht : t ≠ []) :
    specLines (b :: t) = specLines t := by
  rcases t with _ | ⟨c, t'⟩
  · exact absurd rfl ht
  · simp only [specLines, List.count_cons, List.getLast?_cons_cons]
    simp [hb]

/-- Consuming one chunk removes exactly one specLines line. -/
lemma specLines_step (bs : List Nat) (h : bs ≠ []) :
    specLines bs = 1 + specLines (read_until bs).2 := by
  induction bs with
  | nil => exact absurd rfl h
  | cons b t ih =>
    by_cases hb : b = 10
    · subst hb
      have hr : (read_until (10 :: t)).2 = t := by simp [read_until]
      rw [hr]
      exact specLines_cons_10 t
    · rcases t with _ | ⟨c, t'⟩
      · have hr : (read_until [b]).2 = [] := by simp [read_until, hb]
        rw [hr]
        have hc : List.count 10 [b] = 0 := List.count_eq_zero.mpr (by simp; omega)
        simp [specLines, hb, List.getLast?, hc]
      · have hr : (read_until (b :: c :: t')).2 = (read_until (c :: t')).2 := by
          simp [read_until, hb]
        rw [hr, specLines_cons_ne b (c :: t') hb (by simp)]
        exact ih (by simp)

/-- Invariant of the counting loop: it adds the line and byte totals of the
remaining input to its accumulators. -/
lemma count_go_spec : ∀ (k : Nat) (bs : List Nat), bs.length ≤ k → ∀ l b : Nat,
    count_go bs l b = (l + specLines bs, b + bs.length) := by
  intro k
  induction k with
  | zero =>
    intro bs hlen l b
    have hnil : bs = [] := List.length_eq_zero.mp (by omega)
    subst hnil
    rw [count_go]
    simp [read_until, specLines]
  | succ k ih =>
    intro bs hlen l b
    by_cases hne : bs = []
    · subst hne
      rw [count_go]
      simp [read_until, specLines]
    · rw [count_go]
      have hfst : ¬ (read_until bs).1.length = 0 :=
        fun h => read_until_fst_ne bs hne (List.length_eq_zero.mp h)
      rw [if_neg hfst]
      have hlen2 := congrArg List.length (read_until_append bs)
      simp only [List.length_append] at hlen2
      have hrest : (read_until bs).2.length ≤ k := by omega
      rw [ih _ hrest]
      rw [specLines_step bs hne]
      simp only [Prod.mk.injEq]
      constructor <;> omega

/-- C6: count_lines_bytes returns the pair of the line count (terminator
delimited lines, with an unterminated final line counting as a full line)
and the total byte count including terminator bytes; in particular the
empty file yields (0, 0). -/
theorem count_lines_bytes_spec (content : List Nat) :
    count_lines_bytes content = (specLines content, content.length) := by
  have h := count_go_spec content.length content le_rfl 0 0
  simpa [count_lines_bytes] using h

/-- The lossy conversion is the identity on valid UTF-8 byte lists. -/
lemma utf8Lossy_of_valid (bs : List Nat) : validUtf8 bs = true → utf8Lossy bs = bs := by
  induction bs using utf8Lossy.induct with
  | case1 => intro _; rfl
  | case2 b bs h1 ih =>
    intro hv
    rw [validUtf8.eq_def] at hv
    simp only [if_pos h1] at hv
    rw [utf8Lossy.eq_def]
    simp only [if_pos h1]
    rw [ih hv]
  | case3 b h1 h2 =>
    intro hv
    rw [validUtf8.eq_def] at hv
    simp only [if_neg h1, if_pos h2] at hv
    exact Bool.noConfusion hv
  | case4 b h1 h2 b1 bs hc ih =>
    intro hv
    rw [validUtf8.eq_def] at hv
    simp only [if_neg h1, if_pos h2, if_pos hc] at hv
    rw [utf8Lossy.eq_def]
    simp only [if_neg h1, if_pos h2, if_pos hc]
    rw [ih hv]
  | case5 b h1 h2 b1 bs hnc ih =>
    intro hv
    rw [validUtf8.eq_def] at hv
    simp only [if_neg h1, if_pos h2, if_neg hnc] at hv
    exact Bool.noConfusion hv
  | case6 b h1 hn2 h3 =>
    intro hv
    rw [validUtf8.eq_def] at hv
    simp only [if_neg h1, if_neg hn2, if_pos h3] at hv
    exact Bool.noConfusion hv
  | case7 b h1 hn2 h3 b1 hs =>
    intro hv
    rw [validUtf8.eq_def] at hv
    simp only [if_neg h1, if_neg hn2, if_pos h3, if_pos hs] at hv
    exact Bool.noConfusion hv
  | case8 b h1 hn2 h3 b1 hs b2 bs hc ih =>
    intro hv
    rw [validUtf8.eq_def] at hv
    simp only [if_neg h1, if_neg hn2, if_pos h3, if_pos hs, if_pos hc] at hv
    rw [utf8Lossy.eq_def]
    simp only [if_neg h1, if_neg hn2, if_pos h3, if_pos hs, if_pos hc]
    rw [ih hv]
  | case9 b h1 hn2 h3 b1 hs b2 bs hnc ih =>
    intro hv
    rw [validUtf8.eq_def] at hv
    simp only [if_neg h1, if_neg hn2, if_pos h3, if_pos hs, if_neg hnc] at hv
    exact Bool.noConfusion hv
  | case10 b h1 hn2 h3 b1 bs hns ih =>
    intro hv
    rw [validUtf8.eq_def] at hv
    simp only [if_neg h1, if_neg hn2, if_pos h3, if_neg hns] at hv
    exact Bool.noConfusion hv
  | case11 b h1 hn2 hn3 h4 =>
    intro hv
    rw [validUtf8.eq_def] at hv
    simp only [if_neg h1, if_neg hn2, if_neg hn3, if_pos h4] at hv
    exact Bool.noConfusion hv
  | case12 b h1 hn2 hn3 h4 b1 hs =>
    intro hv
    rw [validUtf8.eq_def] at hv
    simp only [if_neg h1, if_neg hn2, if_neg hn3, if_pos h4, if_pos hs] at hv
    exact Bool.noConfusion hv
  | case13 b h1 hn2 hn3 h4 b1 hs b2 hc =>
    intro hv
    rw [validUtf8.eq_def] at hv
    simp only [if_neg h1, if_neg hn2, if_neg hn3, if_pos h4, if_pos hs, if_pos hc] at hv
    exact Bool.noConfusion hv
  | case14 b h1 hn2 hn3 h4 b1 hs b2 hc2 b3 bs hc3 ih =>
    intro hv
    rw [validUtf8.eq_def] at hv
    simp only [if_neg h1, if_neg hn2, if_neg hn3, if_pos h4, if_pos hs, if_pos hc2,
      if_pos hc3] at hv
    rw [utf8Lossy.eq_def]
    simp only [if_neg h1, if_neg hn2, if_neg hn3, if_pos h4, if_pos hs, if_pos hc2, if_pos hc3]
    rw [ih hv]
  | case15 b h1 hn2 hn3 h4 b1 hs b2 hc2 b3 bs hnc3 ih =>
    intro hv
    rw [validUtf8.eq_def] at hv
    simp only [if_neg h1, if_neg hn2, if_neg hn3, if_pos h4, if_pos hs, if_pos hc2,
      if_neg hnc3] at hv
    exact Bool.noConfusion hv
  | case16 b h1 hn2 hn3 h4 b1 hs b2 bs hnc2 ih =>
    intro hv
    rw [validUtf8.eq_def] at hv
    simp only [if_neg h1, if_neg hn2, if_neg hn3, if_pos h4, if_pos hs, if_neg hnc2] at hv
    exact Bool.noConfusion hv
  | case17 b h1 hn2 hn3 h4 b1 bs hns ih =>
    intro hv
    rw [validUtf8.eq_def] at hv
    simp only [if_neg h1, if_neg hn2, if_neg hn3, if_pos h4, if_neg hns] at hv
    exact Bool.noConfusion hv
  | case18 b bs h1 hn2 hn3 hn4 ih =>
    intro hv
    rw [validUtf8.eq_def] at hv
    simp only [if_neg h1, if_neg hn2, if_neg hn3, if_neg hn4] at hv
    exact Bool.noConfusion hv

/-- C7 (amended): with a resolved start index, the byte emitter writes
exactly the remaining bytes of the file passed through the lossy UTF-8
conversion; whenever those remaining bytes are valid UTF-8 they are written
unchanged, and when nothing remains after the seek it writes nothing. -/
theorem print_bytes_spec (content : List Nat) (tv : TakeValue) (total start : Nat)
    (h : get_start_index tv total = some start) :
    print_bytes content tv total = utf8Lossy (content.drop start) ∧
    (validUtf8 (content.drop start) = true →
      print_bytes content tv total = content.drop start) ∧
    (content.length ≤ start → print_bytes content tv total = []) := by
  have hmain : print_bytes content tv total = utf8Lossy (content.drop start) := by
    simp only [print_bytes, h]
    by_cases he : (content.drop start).isEmpty
    · rw [if_pos he, List.isEmpty_iff.mp he]
      rfl
    · rw [if_neg he]
  refine ⟨hmain, ?_, ?_⟩
  · intro hv
    rw [hmain, utf8Lossy_of_valid _ hv]
  · intro hlen
    rw [hmain, List.drop_eq_nil_of_le hlen]
    rfl

/-- Witness for C7 (amended): requesting the last byte of the two-byte file
"hi" writes exactly its final byte. -/
theorem print_bytes_spec_w :
    print_bytes [104, 105] (.TakeNum (-1)) 2 = utf8Lossy ([104, 105].drop 1) ∧
    (validUtf8 ([104, 105].drop 1) = true →
      print_bytes [104, 105] (.TakeNum (-1)) 2 = [104, 105].drop 1) ∧
    ([104, 105].length ≤ 1 → print_bytes [104, 105] (.TakeNum (-1)) 2 = []) :=
  print_bytes_spec [104, 105] (.TakeNum (-1)) 2 1 (by decide)

/-- C7 as stated is false: a file holding the single byte 255 with the last
byte requested emits the three replacement-character bytes rather than the
original byte, so the output is not a plain byte passthrough. -/
theorem print_bytes_not_passthrough :
    print_bytes [255] (.TakeNum (-1)) 1 = [239, 191, 189] ∧
    ([239, 191, 189] : List Nat) ≠ [255] :=
  ⟨rfl, by decide⟩

/-- Every member of a list appears in its enumeration at some index. -/
lemma exists_enumFrom_of_mem (a : String) :
    ∀ (l : List String) (n : Nat), a ∈ l → ∃ i, (i, a) ∈ List.enumFrom n l := by
  intro l
  induction l with
  | nil => intro n h; exact absurd h (by simp)
  | cons b t ih =>
    intro n h
    rcases List.mem_cons.mp h with rfl | h
    · exact ⟨n, by simp [List.enumFrom_cons]⟩
    · obtain ⟨i, hi⟩ := ih (n + 1) h
      exact ⟨i, by simp [List.enumFrom_cons, hi]⟩

/-- The run loop never fails and emits the per-file events in order: the
reopened count always sees the same file system as the successful open. -/
lemma runLoop_eq (fs : String → Option (List Nat)) (bytes : Option TakeValue)
    (lines : TakeValue) (quiet : Bool) (num_files : Nat) :
    ∀ ps : List (Nat × String),
    runLoop fs bytes lines quiet num_files ps =
      .ok (ps.flatMap (fun p => fileEvents fs bytes lines quiet num_files p.1 p.2)) := by
  intro ps
  induction ps with
  | nil => rfl
  | cons p rest ih =>
    rcases p with ⟨file_num, filename⟩
    cases hfs : fs filename with
    | none =>
      simp only [runLoop, hfs, ih, Except.map]
      simp [fileEvents, hfs]
    | some content =>
      have hcount : count_lines_bytes_file fs filename = .ok (count_lines_bytes content) := by
        simp [count_lines_bytes_file, hfs]
      simp only [runLoop, hfs, hcount, ih, Except.map]
      simp [fileEvents, hfs]

/-- C9: run always returns success, producing exactly the per-file events in
file order; every file whose open fails contributes its diagnostic on the
error stream and the remaining files are still processed, so an open failure
never aborts the run. -/
theorem run_recovers_open_errors (files : List String) (lines : TakeValue)
    (bytes : Option TakeValue) (quiet : Bool) (fs : String → Option (List Nat)) :
    run files lines bytes quiet fs = .ok (runEvents files lines bytes quiet fs) ∧
    ∀ filename ∈ files, fs filename = none →
      Event.diag filename ∈ runEvents files lines bytes quiet fs := by
  constructor
  · exact runLoop_eq fs bytes lines quiet files.length files.enum
  · intro filename hmem hfs
    obtain ⟨i, hi⟩ := exists_enumFrom_of_mem filename files 0 hmem
    unfold runEvents
    exact List.mem_flatMap.mpr ⟨(i, filename), hi, by simp [fileEvents, hfs]⟩

/-- Witness for C9: with file "a" missing and file "b" empty, the run emits
the diagnostic for "a" while still processing "b". -/
theorem run_recovers_open_errors_w :
    Event.diag "a" ∈ runEvents ["a", "b"] (.TakeNum (-1)) none false
      (fun f => if f = "b" then some [] else none) :=
  (run_recovers_open_errors ["a", "b"] (.TakeNum (-1)) none false
    (fun f => if f = "b" then some [] else none)).2 "a" (by simp) (by simp)

end Tailr
